import Mathlib

/-!
Verification of the spell-check core in src/services/spell_check.py.

Words are modelled as List Char (Python strings).  The candidate generator
and its helper comprehensions are translated comprehension by comprehension.
The Levenshtein and optimal-string-alignment loops write each interior matrix
cell exactly once, from cells that already hold their final value (the border
written by generate_matrix, cells of earlier rows, and earlier cells of the
current row), so the filled matrix is captured by a recurrence on the cell
indices; the base cases are the border of generate_matrix.  The
Damerau-Levenshtein routine is genuinely stateful (a last-occurrence table and
a per-row last-column register feed the transposition lookup, which can also
read cells through negative Python indices), so it is embedded as an explicit
fold over the loop index ranges, with Python negative-index wrapping made
explicit and the dict lookup made fallible (Option), as in the source.
-/

set_option maxHeartbeats 1000000

/-- Alphabet literal "abcdefghijklmnopqrstuvwxyz" used by
alternative_words_with_one_distance. -/
def alternative_letters : List Char :=
  "abcdefghijklmnopqrstuvwxyz".toList

/-- Alphabet string.ascii_lowercase used by generate_baseline_row_for_characters. -/
def ascii_lowercase : List Char :=
  "abcdefghijklmnopqrstuvwxyz".toList

/-- Embedding of the comprehension split_test_word: the pairs
(test_word[:i], test_word[i:]) for i in range(len(test_word) + 1). -/
def split_test_word (w : List Char) : List (List Char × List Char) :=
  (List.range (w.length + 1)).map fun i => (w.take i, w.drop i)

/-- Embedding of deleting_characters: split_left + split_right[1:] for every
split with nonempty split_right. -/
def deleting_characters (w : List Char) : List (List Char) :=
  ((split_test_word w).filter fun p => !p.2.isEmpty).map fun p => p.1 ++ p.2.tail

/-- Embedding of transposing_characters_in_split_words: split_left +
split_right[1] + split_right[0] + split_right[2:] whenever split_right has
length above one. -/
def transposing_characters_in_split_words (w : List Char) : List (List Char) :=
  ((split_test_word w).filter fun p => decide (1 < p.2.length)).map fun p =>
    p.1 ++ [p.2.getD 1 'a', p.2.getD 0 'a'] ++ p.2.drop 2

/-- Embedding of replacing_characters_in_split_words: split_left + character +
split_right[1:] for every split with nonempty split_right and every character
of the alphabet (note: the source iterates over all 26 letters, including the
character being replaced). -/
def replacing_characters_in_split_words (w : List Char) : List (List Char) :=
  ((split_test_word w).filter fun p => !p.2.isEmpty).flatMap fun p =>
    alternative_letters.map fun character => p.1 ++ [character] ++ p.2.tail

/-- Embedding of insert_characters_in_split_words: split_left + character +
split_right for every split and every character of the alphabet. -/
def insert_characters_in_split_words (w : List Char) : List (List Char) :=
  (split_test_word w).flatMap fun p =>
    alternative_letters.map fun character => p.1 ++ [character] ++ p.2

/-- Embedding of alternative_words_with_one_distance.  The Python set(...) of
the four candidate lists is modelled by their concatenation; membership in the
set is membership in this list. -/
def alternative_words_with_one_distance (w : List Char) : List (List Char) :=
  deleting_characters w ++ transposing_characters_in_split_words w ++
    replacing_characters_in_split_words w ++ insert_characters_in_split_words w

/-- Embedding of cost_heuristic_for_characters: 0 for equal characters, 1
otherwise. -/
def cost_heuristic_for_characters (character_1 character_2 : Char) : Nat :=
  if character_1 = character_2 then 0 else 1

/-- Row i + 1 of the Levenshtein matrix, built from row i (the argument prev)
by the loop body of calculate_levenshtein_distance: cell (i + 1, 0) is the
border entry i + 1 of generate_matrix, and cell (i + 1, j + 1) is the minimum
written by the loop, reading the cell above (prev), the cell to the left
(the recursive call), and the diagonal cell (prev). -/
def levenshteinRowStep (a b : List Char) (i : Nat) (prev : Nat → Nat) : Nat → Nat
  | 0 => i + 1
  | j + 1 =>
    min (min (prev (j + 1) + 1) (levenshteinRowStep a b i prev j + 1))
      (prev j + cost_heuristic_for_characters (a.getD i 'a') (b.getD j 'a'))

/-- Row i of the Levenshtein matrix: row 0 is the border 0..n written by
generate_matrix, and each later row comes from the previous one via
levenshteinRowStep.  The loop writes each interior cell exactly once from
cells that already hold their final value, so the filled matrix satisfies
exactly this recurrence. -/
def levenshteinRow (a b : List Char) : Nat → Nat → Nat
  | 0 => fun j => j
  | i + 1 => levenshteinRowStep a b i (levenshteinRow a b i)

/-- Cell (i, j) of the matrix filled by calculate_levenshtein_distance. -/
def levenshteinCell (a b : List Char) (i j : Nat) : Nat :=
  levenshteinRow a b i j

/-- Embedding of calculate_levenshtein_distance: the bottom-right cell of the
filled matrix. -/
def calculate_levenshtein_distance (a b : List Char) : Nat :=
  levenshteinCell a b a.length b.length

/-- Row i + 1 of the optimal-string-alignment matrix from rows i (prev) and
i - 1 (pprev): the Levenshtein relaxation followed, when the last two
characters form an adjacent transposition, by the extra relaxation against
cell (i - 1, j - 1) plus one, exactly as in the loop body of
calculate_optimal_string_alignment_distance.  The pprev argument is only read
when 1 ≤ i. -/
def osaRowStep (a b : List Char) (i : Nat) (prev pprev : Nat → Nat) : Nat → Nat
  | 0 => i + 1
  | j + 1 =>
    let base :=
      min (min (prev (j + 1) + 1) (osaRowStep a b i prev pprev j + 1))
        (prev j + cost_heuristic_for_characters (a.getD i 'a') (b.getD j 'a'))
    if 1 ≤ i ∧ 1 ≤ j ∧ a.getD i 'a' = b.getD (j - 1) 'a' ∧
        a.getD (i - 1) 'a' = b.getD j 'a' then
      min base (pprev (j - 1) + 1)
    else base

/-- Rows i and i - 1 of the optimal-string-alignment matrix (for i = 0 the
second component is an unread placeholder); row 0 is the border of
generate_matrix. -/
def osaRowPair (a b : List Char) : Nat → ((Nat → Nat) × (Nat → Nat))
  | 0 => (fun j => j, fun _ => 0)
  | i + 1 =>
    (osaRowStep a b i (osaRowPair a b i).1 (osaRowPair a b i).2,
      (osaRowPair a b i).1)

/-- Row i of the optimal-string-alignment matrix. -/
def osaRow (a b : List Char) (i : Nat) : Nat → Nat :=
  (osaRowPair a b i).1

/-- Cell (i, j) of the matrix filled by
calculate_optimal_string_alignment_distance. -/
def osaCell (a b : List Char) (i j : Nat) : Nat :=
  osaRow a b i j

/-- Embedding of calculate_optimal_string_alignment_distance. -/
def calculate_optimal_string_alignment_distance (a b : List Char) : Nat :=
  osaCell a b a.length b.length

/-- Python negative list indexing on an axis of the given size: an index below
zero counts from the end.  The algorithm only produces indices at or above -1. -/
def wrapIdx (size : Nat) (i : Int) : Nat :=
  if i < 0 then ((size : Int) + i).toNat else i.toNat

/-- Embedding of generate_damerau_leven_matrix as a function from indices to
entries: every cell holds user_word_length + dictionary_word_length, then the
loop over rows writes column 1 and the loop over columns writes row 1 (the two
loops agree on cell (1, 1), both writing 0). -/
def generate_damerau_leven_matrix (m n : Nat) : Nat → Nat → Int :=
  fun i j =>
    if i = 1 ∧ 1 ≤ j ∧ j ≤ n + 1 then (j : Int) - 1
    else if j = 1 ∧ 1 ≤ i ∧ i ≤ m + 1 then (i : Int) - 1
    else (m : Int) + n

/-- Embedding of generate_baseline_row_for_characters: the dict mapping each
lowercase letter and the underscore to 0; a lookup of any other character
fails (KeyError), hence Option. -/
def generate_baseline_row_for_characters : Char → Option Nat :=
  fun c => if c ∈ ascii_lowercase ∨ c = '_' then some 0 else none

/-- Functional update of the last-occurrence dict; Python assignment to a dict
key, which also inserts keys that were absent. -/
def updateTable (t : Char → Option Nat) (c : Char) (v : Nat) : Char → Option Nat :=
  fun x => if x = c then some v else t x

/-- Functional update of one matrix cell. -/
def update2 (M : Nat → Nat → Int) (i j : Nat) (v : Int) : Nat → Nat → Int :=
  fun r c => if r = i ∧ c = j then v else M r c

/-- State carried across the inner j loop of
calculate_damerau_levenshtein_distance: the matrix, the register
latest_column_for_character, and (for auditing the transposition lookups) the
list of index pairs used in the matrix read of the transposition term. -/
structure DLRowState where
  M : Nat → Nat → Int
  latest_column_for_character : Nat
  lookups : List (Int × Int)

/-- One iteration of the inner j loop of
calculate_damerau_levenshtein_distance.  Returns none exactly when the dict
lookup of the current dictionary-word character would raise KeyError. -/
def dl_process_cell (a b : List Char) (m n : Nat) (table : Char → Option Nat)
    (i : Nat) (st : DLRowState) (j : Nat) : Option DLRowState :=
  match table (b.getD (j - 2) 'a') with
  | none => none
  | some last_matching_row =>
    let last_matching_column := st.latest_column_for_character
    let distance_cost : Int :=
      if a.getD (i - 2) 'a' = b.getD (j - 2) 'a' then 0 else 1
    let latest' :=
      if a.getD (i - 2) 'a' = b.getD (j - 2) 'a' then j
      else st.latest_column_for_character
    let rowIdx : Int := (last_matching_row : Int) - 1
    let colIdx : Int := (last_matching_column : Int) - 1
    let value :=
      min (min (min (st.M (i - 1) (j - 1) + distance_cost) (st.M i (j - 1) + 1))
          (st.M (i - 1) j + 1))
        (st.M (wrapIdx (m + 2) rowIdx) (wrapIdx (n + 2) colIdx) +
          ((i : Int) - last_matching_row - 1) +
          ((j : Int) - last_matching_column - 1) + 1)
    some ⟨update2 st.M i j value, latest', st.lookups ++ [(rowIdx, colIdx)]⟩

/-- State carried across the outer i loop: the matrix, the dict
latest_row_for_character, and the audited lookup indices. -/
structure DLState where
  M : Nat → Nat → Int
  latest_row_for_character : Char → Option Nat
  lookups : List (Int × Int)

/-- One iteration of the outer i loop: run the inner loop over
j in range(2, len(dictionary_word) + 2) with latest_column_for_character reset
to 0, then record i as the latest row of the current user-word character. -/
def dl_process_row (a b : List Char) (m n : Nat) (st : DLState) (i : Nat) :
    Option DLState := do
  let rst ← (List.range' 2 n).foldlM
    (dl_process_cell a b m n st.latest_row_for_character i)
    ⟨st.M, 0, st.lookups⟩
  pure ⟨rst.M, updateTable st.latest_row_for_character (a.getD (i - 2) 'a') i,
    rst.lookups⟩

/-- The full run of calculate_damerau_levenshtein_distance: the outer loop over
i in range(2, len(user_word) + 2), starting from the matrix of
generate_damerau_leven_matrix and the dict of
generate_baseline_row_for_characters. -/
def dlRun (a b : List Char) : Option DLState :=
  (List.range' 2 a.length).foldlM (dl_process_row a b a.length b.length)
    ⟨generate_damerau_leven_matrix a.length b.length,
      generate_baseline_row_for_characters, []⟩

/-- Embedding of calculate_damerau_levenshtein_distance: the final
distance_matrix[-1][-1], read with Python negative indexing; none when the
run raises KeyError. -/
def calculate_damerau_levenshtein_distance (a b : List Char) : Option Int :=
  (dlRun a b).map fun st =>
    st.M (wrapIdx (a.length + 2) (-1)) (wrapIdx (b.length + 2) (-1))

/-- Matrix index pairs used by the transposition lookup
matrix[last_matching_row - 1][last_matching_column - 1] during the run, in
evaluation order, before Python negative-index wrapping is applied. -/
def damerau_lookup_indices (a b : List Char) : Option (List (Int × Int)) :=
  (dlRun a b).map DLState.lookups

/-- Recursive companion of the Levenshtein matrix: levSuff u v is the cell of
the matrix at the prefixes whose reversals are u and v.  Used only for proofs;
the executable embedding is levenshteinCell. -/
def levSuff : List Char → List Char → Nat
  | [], ys => ys.length
  | _ :: xs, [] => xs.length + 1
  | x :: xs, y :: ys =>
    min (min (levSuff xs (y :: ys) + 1) (levSuff (x :: xs) ys + 1))
      (levSuff xs ys + cost_heuristic_for_characters x y)

/-- The row stored by the dict latest_row_for_character for a given character
after the rows of the given index list prefix have been processed: the last
row i among 2..k+1 whose user-word character a[i-2] is that character, and 0
when there is none.  Mirrors the assignment at the end of each outer
iteration. -/
def lastOccRows (a : List Char) (k : Nat) (c : Char) : Nat :=
  (List.range' 2 k).foldl (fun acc i => if a.getD (i - 2) 'a' = c then i else acc) 0

/-- The value of the register latest_column_for_character in row i after the
first q inner iterations: the last column j among 2..q+1 whose dictionary-word
character b[j-2] equals the row character a[i-2], and 0 when there is none. -/
def lastMatchCols (a b : List Char) (i q : Nat) : Nat :=
  (List.range' 2 q).foldl
    (fun acc j => if a.getD (i - 2) 'a' = b.getD (j - 2) 'a' then j else acc) 0

/-- Invariant of the inner loop state in row i after q inner iterations: every
written cell is bounded by the corresponding cell of the optimal string
alignment matrix (shifted by one, because of the sentinel border), every other
cell still holds its generate_damerau_leven_matrix value, and the
latest-column register is the last matching column. -/
def RowInv (a b : List Char) (i q : Nat) (st : DLRowState) : Prop :=
  (∀ r c, (2 ≤ r ∧ r ≤ i - 1 ∧ 2 ≤ c ∧ c ≤ b.length + 1) ∨
      (r = i ∧ 2 ≤ c ∧ c ≤ q + 1) →
    st.M r c ≤ (osaCell a b (r - 1) (c - 1) : Int)) ∧
  (∀ r c, ¬ ((2 ≤ r ∧ r ≤ i - 1 ∧ 2 ≤ c ∧ c ≤ b.length + 1) ∨
      (r = i ∧ 2 ≤ c ∧ c ≤ q + 1)) →
    st.M r c = generate_damerau_leven_matrix a.length b.length r c) ∧
  st.latest_column_for_character = lastMatchCols a b i q

/-- Invariant of the outer loop state after k rows: the dict stores the last
occurrence row for every lowercase character, every written cell is bounded by
the corresponding optimal-string-alignment cell, and every other cell holds
its border value. -/
def OuterInv (a b : List Char) (k : Nat) (st : DLState) : Prop :=
  (∀ c ∈ ascii_lowercase, st.latest_row_for_character c = some (lastOccRows a k c)) ∧
  (∀ r c, (2 ≤ r ∧ r ≤ k + 1 ∧ 2 ≤ c ∧ c ≤ b.length + 1) →
    st.M r c ≤ (osaCell a b (r - 1) (c - 1) : Int)) ∧
  (∀ r c, ¬ (2 ≤ r ∧ r ≤ k + 1 ∧ 2 ≤ c ∧ c ≤ b.length + 1) →
    st.M r c = generate_damerau_leven_matrix a.length b.length r c)

/-! Helper lemmas. -/

theorem levenshteinRow_col_zero (a b : List Char) (i : Nat) :
    levenshteinRow a b i 0 = i := by
  cases i <;> rfl

theorem osaRow_col_zero (a b : List Char) (i : Nat) :
    osaRow a b i 0 = i := by
  cases i with
  | zero => rfl
  | succ n => simp [osaRow, osaRowPair, osaRowStep]

theorem wrapIdx_neg_one (s : Nat) : wrapIdx (s + 2) (-1) = s + 1 := by
  simp only [wrapIdx]
  norm_num
  omega

theorem dl_matrix_row_one (m n j : Nat) (h1 : 1 ≤ j) (h2 : j ≤ n + 1) :
    generate_damerau_leven_matrix m n 1 j = (j : Int) - 1 := by
  unfold generate_damerau_leven_matrix
  rw [if_pos ⟨rfl, h1, h2⟩]

theorem dl_matrix_col_one (m n i : Nat) (hne : i ≠ 1) (h1 : 1 ≤ i)
    (h2 : i ≤ m + 1) : generate_damerau_leven_matrix m n i 1 = (i : Int) - 1 := by
  unfold generate_damerau_leven_matrix
  rw [if_neg (fun hc => hne hc.1), if_pos ⟨rfl, h1, h2⟩]

/-- With an empty dictionary word the inner loop body never runs: every outer
iteration keeps the matrix and the lookup list and only updates the
last-occurrence dict. -/
theorem foldlM_rows_empty_dictionary (a : List Char) (m : Nat) :
    ∀ (L : List Nat) (st : DLState), ∃ t,
      List.foldlM (dl_process_row a [] m 0) st L = some ⟨st.M, t, st.lookups⟩ := by
  intro L
  induction L with
  | nil => intro st; exact ⟨st.latest_row_for_character, rfl⟩
  | cons i L ih =>
    intro st
    have hstep : dl_process_row a [] m 0 st i =
        some ⟨st.M, updateTable st.latest_row_for_character (a.getD (i - 2) 'a') i,
          st.lookups⟩ := rfl
    obtain ⟨t, ht⟩ := ih ⟨st.M,
      updateTable st.latest_row_for_character (a.getD (i - 2) 'a') i, st.lookups⟩
    refine ⟨t, ?_⟩
    rw [List.foldlM_cons, hstep]
    exact ht

/-- Claim C8: each of the three distance functions returns the length of the
other word when one input is the empty word, in either argument order (for the
Damerau-Levenshtein routine the loops never reach a dict lookup, so no
KeyError is possible and the border of generate_damerau_leven_matrix is
returned). -/
theorem distances_on_empty_word (w : List Char) :
    calculate_levenshtein_distance [] w = w.length ∧
    calculate_levenshtein_distance w [] = w.length ∧
    calculate_optimal_string_alignment_distance [] w = w.length ∧
    calculate_optimal_string_alignment_distance w [] = w.length ∧
    calculate_damerau_levenshtein_distance [] w = some (w.length : Int) ∧
    calculate_damerau_levenshtein_distance w [] = some (w.length : Int) := by
  refine ⟨rfl, ?_, rfl, ?_, ?_, ?_⟩
  · exact levenshteinRow_col_zero w [] w.length
  · exact osaRow_col_zero w [] w.length
  · show (dlRun [] w).map _ = _
    have hrun : dlRun [] w = some ⟨generate_damerau_leven_matrix 0 w.length,
        generate_baseline_row_for_characters, []⟩ := rfl
    rw [hrun]; simp only [Option.map_some']
    have h1 : wrapIdx (List.length ([] : List Char) + 2) (-1) = 1 := wrapIdx_neg_one 0
    have h2 : wrapIdx (w.length + 2) (-1) = w.length + 1 := wrapIdx_neg_one w.length
    rw [h1, h2, dl_matrix_row_one 0 w.length (w.length + 1) (by omega) (by omega)]
    congr 1
    push_cast
    ring
  · show (dlRun w []).map _ = _
    obtain ⟨t, ht⟩ := foldlM_rows_empty_dictionary w w.length
      (List.range' 2 w.length)
      ⟨generate_damerau_leven_matrix w.length 0, generate_baseline_row_for_characters, []⟩
    have hrun : dlRun w [] = some ⟨generate_damerau_leven_matrix w.length 0, t, []⟩ := ht
    rw [hrun]; simp only [Option.map_some']
    have h1 : wrapIdx (w.length + 2) (-1) = w.length + 1 := wrapIdx_neg_one w.length
    have h2 : wrapIdx (List.length ([] : List Char) + 2) (-1) = 1 := wrapIdx_neg_one 0
    rw [h1, h2]
    cases w with
    | nil =>
      simp only [List.length_nil, Nat.zero_add]
      rw [dl_matrix_row_one 0 0 1 (by omega) (by omega)]
      norm_num
    | cons c w =>
      rw [dl_matrix_col_one (c :: w).length 0 ((c :: w).length + 1) (by simp) (by omega)
        (by omega)]
      congr 1
      push_cast
      ring

/-- If some column of the inner loop looks up a character absent from the
last-occurrence dict, the whole inner loop fails. -/
theorem foldlM_cells_key_error (a b : List Char) (m n : Nat)
    (table : Char → Option Nat) (i : Nat) :
    ∀ (L : List Nat) (st : DLRowState),
      (∃ j ∈ L, table (b.getD (j - 2) 'a') = none) →
      List.foldlM (dl_process_cell a b m n table i) st L = none := by
  intro L
  induction L with
  | nil =>
    rintro st ⟨j, hj, -⟩
    exact absurd hj (List.not_mem_nil j)
  | cons j L ih =>
    rintro st ⟨j', hj', hnone⟩
    rw [List.foldlM_cons]
    cases hlook : table (b.getD (j - 2) 'a') with
    | none =>
      have hcell : dl_process_cell a b m n table i st j = none := by
        unfold dl_process_cell
        rw [hlook]
      rw [hcell]
      rfl
    | some k =>
      have hcell : dl_process_cell a b m n table i st j ≠ none := by
        unfold dl_process_cell
        rw [hlook]
        exact Option.some_ne_none _
      cases hcell2 : dl_process_cell a b m n table i st j with
      | none => exact absurd hcell2 hcell
      | some st' =>
        show List.foldlM _ st' L = none
        refine ih st' ⟨j', ?_, hnone⟩
        rcases List.mem_cons.mp hj' with h | h
        · exfalso
          rw [h] at hnone
          rw [hnone] at hlook
          exact Option.noConfusion hlook
        · exact h

/-- Claim C10: calculate_damerau_levenshtein_distance is partial outside the
default alphabet: for nonempty inputs, a dictionary word containing any
character that is neither a lowercase letter nor the underscore makes the
first row of the loop raise KeyError (the last-occurrence dict of
generate_baseline_row_for_characters has no such key, and assignments of
user-word characters only happen after a full row of lookups).  The
Levenshtein and optimal-string-alignment embeddings are total functions on
arbitrary character lists, mirroring that those Python routines cannot
raise. -/
theorem damerau_key_error_on_foreign_characters (a b : List Char) (c : Char)
    (ha : a ≠ []) (hc : c ∈ b) (h1 : c ∉ ascii_lowercase) (h2 : c ≠ '_') :
    calculate_damerau_levenshtein_distance a b = none := by
  obtain ⟨p, hp, hpc⟩ := List.getElem_of_mem hc
  have htable : generate_baseline_row_for_characters (b.getD (p + 2 - 2) 'a') = none := by
    have hidx : p + 2 - 2 = p := by omega
    have : b.getD (p + 2 - 2) 'a' = c := by
      rw [hidx, List.getD_eq_getElem b 'a' hp, hpc]
    rw [this]
    unfold generate_baseline_row_for_characters
    rw [if_neg]
    rintro (h | h)
    · exact h1 h
    · exact h2 h
  have hrow : ∀ st : DLState, st.latest_row_for_character =
      generate_baseline_row_for_characters →
      dl_process_row a b a.length b.length st 2 = none := by
    intro st hst
    have hinner := foldlM_cells_key_error a b a.length b.length
      st.latest_row_for_character 2 (List.range' 2 b.length)
      ⟨st.M, 0, st.lookups⟩
      ⟨p + 2, by
        rw [List.mem_range'_1]
        omega, by rw [hst]; exact htable⟩
    unfold dl_process_row
    rw [hinner]
    rfl
  obtain ⟨m', hm⟩ : ∃ m', a.length = m' + 1 := by
    cases a with
    | nil => exact absurd rfl ha
    | cons c0 a' => exact ⟨a'.length, rfl⟩
  show (dlRun a b).map _ = none
  have hrun : dlRun a b = none := by
    unfold dlRun
    rw [show List.range' 2 a.length = 2 :: List.range' 3 m' by
      rw [hm, List.range'_succ]]
    rw [List.foldlM_cons, hrow _ rfl]
    rfl
  rw [hrun]
  rfl

/-- Witness for claim C10: the pair ("a", "!") raises. -/
theorem damerau_key_error_witness :
    calculate_damerau_levenshtein_distance ['a'] ['!'] = none :=
  damerau_key_error_on_foreign_characters ['a'] ['!'] '!' (by decide) (by decide)
    (by decide) (by decide)

theorem baseline_row_of_lowercase {c : Char} (h : c ∈ ascii_lowercase) :
    generate_baseline_row_for_characters c = some 0 := by
  unfold generate_baseline_row_for_characters
  rw [if_pos (Or.inl h)]

theorem getD_mem_of_mem_range' {b : List Char} {n j : Nat} (hn : n = b.length)
    (hj : j ∈ List.range' 2 n) : b.getD (j - 2) 'a' ∈ b := by
  rw [List.mem_range'_1] at hj
  have hlt : j - 2 < b.length := by omega
  rw [List.getD_eq_getElem b 'a' hlt]
  exact List.getElem_mem hlt

/-- If every column of the inner loop finds its character in the dict, the
inner loop succeeds, and it extends the lookup list by pairs of indices that
are each at least -1 (each index is a natural number minus one). -/
theorem foldlM_cells_success (a b : List Char) (m n : Nat)
    (table : Char → Option Nat) (i : Nat) :
    ∀ (L : List Nat) (st : DLRowState),
      (∀ j ∈ L, ∃ k, table (b.getD (j - 2) 'a') = some k) →
      ∃ st' ext, List.foldlM (dl_process_cell a b m n table i) st L = some st' ∧
        st'.lookups = st.lookups ++ ext ∧ ∀ p ∈ ext, -1 ≤ p.1 ∧ -1 ≤ p.2 := by
  intro L
  induction L with
  | nil =>
    intro st _
    exact ⟨st, [], rfl, (List.append_nil _).symm, by intro p hp; cases hp⟩
  | cons j L ih =>
    intro st hL
    obtain ⟨k, hk⟩ := hL j (List.mem_cons_self j L)
    obtain ⟨st1, hc1, hc2⟩ : ∃ st1 : DLRowState,
        dl_process_cell a b m n table i st j = some st1 ∧
        st1.lookups = st.lookups ++
          [((k : Int) - 1, (st.latest_column_for_character : Int) - 1)] := by
      unfold dl_process_cell
      rw [hk]
      exact ⟨_, rfl, rfl⟩
    obtain ⟨st', ext, hfold, hlook, hbound⟩ := ih st1
      (fun j' hj' => hL j' (List.mem_cons_of_mem j hj'))
    refine ⟨st', ((k : Int) - 1, (st.latest_column_for_character : Int) - 1) :: ext,
      ?_, ?_, ?_⟩
    · rw [List.foldlM_cons, hc1]
      exact hfold
    · rw [hlook, hc2]
      simp
    · intro p hp
      rcases List.mem_cons.mp hp with rfl | hp'
      · constructor <;> simp
      · exact hbound p hp'

/-- If the dict covers the lowercase alphabet and the dictionary word is
lowercase, every outer iteration succeeds; the lookup list is extended by
pairs of indices at least -1 and dict coverage is preserved. -/
theorem foldlM_rows_success (a b : List Char) (m n : Nat) (hn : n = b.length)
    (hb : ∀ c ∈ b, c ∈ ascii_lowercase) :
    ∀ (L : List Nat) (st : DLState),
      (∀ c ∈ ascii_lowercase, ∃ k, st.latest_row_for_character c = some k) →
      ∃ st' ext, List.foldlM (dl_process_row a b m n) st L = some st' ∧
        st'.lookups = st.lookups ++ ext ∧ ∀ p ∈ ext, -1 ≤ p.1 ∧ -1 ≤ p.2 := by
  intro L
  induction L with
  | nil =>
    intro st _
    exact ⟨st, [], rfl, (List.append_nil _).symm, by intro p hp; cases hp⟩
  | cons i L ih =>
    intro st htab
    obtain ⟨rst, ext1, hfold1, hlook1, hbound1⟩ :=
      foldlM_cells_success a b m n st.latest_row_for_character i
        (List.range' 2 n) ⟨st.M, 0, st.lookups⟩
        (fun j hj => htab _ (hb _ (getD_mem_of_mem_range' hn hj)))
    have hrow : dl_process_row a b m n st i = some
        ⟨rst.M, updateTable st.latest_row_for_character (a.getD (i - 2) 'a') i,
          rst.lookups⟩ := by
      unfold dl_process_row
      rw [hfold1]
      rfl
    obtain ⟨st', ext2, hfold2, hlook2, hbound2⟩ := ih
      ⟨rst.M, updateTable st.latest_row_for_character (a.getD (i - 2) 'a') i,
        rst.lookups⟩
      (by
        intro c hcaz
        show ∃ k, updateTable _ _ _ c = some k
        unfold updateTable
        by_cases hc : c = a.getD (i - 2) 'a'
        · exact ⟨i, by rw [if_pos hc]⟩
        · obtain ⟨k, hk⟩ := htab c hcaz
          exact ⟨k, by rw [if_neg hc]; exact hk⟩)
    refine ⟨st', ext1 ++ ext2, ?_, ?_, ?_⟩
    · rw [List.foldlM_cons, hrow]
      exact hfold2
    · rw [hlook2]
      show rst.lookups ++ ext2 = _
      rw [hlook1]
      simp
    · intro p hp
      rcases List.mem_append.mp hp with h | h
      · exact hbound1 p h
      · exact hbound2 p h

/-- Claim C3 (amended): the transposition lookup indices are not always
non-negative; when a character has no recorded occurrence the stored row (or
column) register is 0 and the used index is -1, which Python wraps to the last
row or column of the matrix rather than the sentinel border.  The indices
never go below -1: for lowercase nonempty inputs the run succeeds, the very
first inner iteration uses the pair (-1, -1), and every recorded pair has both
components at least -1. -/
theorem damerau_lookup_indices_bounded (a b : List Char)
    (ha : a ≠ []) (hb : b ≠ []) (hbl : ∀ c ∈ b, c ∈ ascii_lowercase) :
    ∃ tr, damerau_lookup_indices a b = some tr ∧
      (-1, -1) ∈ tr ∧ ∀ p ∈ tr, -1 ≤ p.1 ∧ -1 ≤ p.2 := by
  obtain ⟨m', hm⟩ : ∃ m', a.length = m' + 1 := by
    cases a with
    | nil => exact absurd rfl ha
    | cons c0 a' => exact ⟨a'.length, rfl⟩
  obtain ⟨n', hn⟩ : ∃ n', b.length = n' + 1 := by
    cases b with
    | nil => exact absurd rfl hb
    | cons c0 b' => exact ⟨b'.length, rfl⟩
  have hb0 : b.getD (2 - 2) 'a' ∈ b := by
    have hlt : 2 - 2 < b.length := by omega
    rw [List.getD_eq_getElem b 'a' hlt]
    exact List.getElem_mem hlt
  -- the first cell of the first row records the pair (-1, -1)
  obtain ⟨st1, hcell0, hst1⟩ : ∃ st1 : DLRowState,
      dl_process_cell a b a.length b.length
        generate_baseline_row_for_characters 2
        ⟨generate_damerau_leven_matrix a.length b.length, 0, []⟩ 2 = some st1 ∧
      st1.lookups = [((0 : Int) - 1, (0 : Int) - 1)] := by
    unfold dl_process_cell
    rw [baseline_row_of_lowercase (hbl _ hb0)]
    exact ⟨_, rfl, rfl⟩
  obtain ⟨rst, ext1, hfold1, hlook1, hbound1⟩ :=
    foldlM_cells_success a b a.length b.length
      generate_baseline_row_for_characters 2 (List.range' 3 n') st1
      (fun j hj => by
        have : j ∈ List.range' 2 b.length := by
          rw [List.mem_range'_1] at hj ⊢
          omega
        exact ⟨0, baseline_row_of_lowercase (hbl _ (getD_mem_of_mem_range' rfl this))⟩)
  have hinner0 : List.foldlM
      (dl_process_cell a b a.length b.length generate_baseline_row_for_characters 2)
      ⟨generate_damerau_leven_matrix a.length b.length, 0, []⟩
      (List.range' 2 b.length) = some rst := by
    rw [show List.range' 2 b.length = 2 :: List.range' 3 n' by
      rw [hn, List.range'_succ]]
    rw [List.foldlM_cons, hcell0]
    exact hfold1
  have hrow0 : dl_process_row a b a.length b.length
      ⟨generate_damerau_leven_matrix a.length b.length,
        generate_baseline_row_for_characters, []⟩ 2 = some
      ⟨rst.M, updateTable generate_baseline_row_for_characters (a.getD 0 'a') 2,
        rst.lookups⟩ := by
    unfold dl_process_row
    rw [hinner0]
    rfl
  obtain ⟨st', ext2, hfold2, hlook2, hbound2⟩ :=
    foldlM_rows_success a b a.length b.length rfl hbl (List.range' 3 m')
      ⟨rst.M, updateTable generate_baseline_row_for_characters (a.getD 0 'a') 2,
        rst.lookups⟩
      (by
        intro c hcaz
        show ∃ k, updateTable _ _ _ c = some k
        unfold updateTable
        by_cases hc : c = a.getD 0 'a'
        · exact ⟨2, by rw [if_pos hc]⟩
        · exact ⟨0, by rw [if_neg hc]; exact baseline_row_of_lowercase hcaz⟩)
  have hrun : dlRun a b = some st' := by
    unfold dlRun
    rw [show List.range' 2 a.length = 2 :: List.range' 3 m' by
      rw [hm, List.range'_succ]]
    rw [List.foldlM_cons, hrow0]
    exact hfold2
  refine ⟨st'.lookups, ?_, ?_, ?_⟩
  · unfold damerau_lookup_indices
    rw [hrun]
    rfl
  · rw [hlook2]
    show ((0 : Int) - 1, (0 : Int) - 1) ∈ rst.lookups ++ ext2
    rw [hlook1, hst1]
    simp
  · intro p hp
    rw [hlook2] at hp
    rcases List.mem_append.mp hp with h | h
    · rw [hlook1, hst1] at h
      rcases List.mem_append.mp h with h' | h'
      · rw [List.mem_singleton.mp h']
        constructor <;> norm_num
      · exact hbound1 p h'
    · exact hbound2 p h

/-- Witness for the amended claim C3 at the concrete input ("ab", "ba"). -/
theorem damerau_lookup_indices_bounded_witness :
    ∃ tr, damerau_lookup_indices "ab".toList "ba".toList = some tr ∧
      (-1, -1) ∈ tr ∧ ∀ p ∈ tr, -1 ≤ p.1 ∧ -1 ≤ p.2 :=
  damerau_lookup_indices_bounded "ab".toList "ba".toList (by decide) (by decide)
    (by decide)

theorem levSuff_nil_right (xs : List Char) : levSuff xs [] = xs.length := by
  cases xs <;> simp [levSuff]

theorem levSuff_cons_cons (x y : Char) (xs ys : List Char) :
    levSuff (x :: xs) (y :: ys) =
      min (min (levSuff xs (y :: ys) + 1) (levSuff (x :: xs) ys + 1))
        (levSuff xs ys + cost_heuristic_for_characters x y) := by
  simp [levSuff]

theorem levenshteinCell_succ_succ (a b : List Char) (i j : Nat) :
    levenshteinCell a b (i + 1) (j + 1) =
      min (min (levenshteinCell a b i (j + 1) + 1) (levenshteinCell a b (i + 1) j + 1))
        (levenshteinCell a b i j +
          cost_heuristic_for_characters (a.getD i 'a') (b.getD j 'a')) := by
  simp [levenshteinCell, levenshteinRow, levenshteinRowStep]

theorem reverse_take_succ {l : List Char} {i : Nat} (h : i < l.length) :
    (l.take (i + 1)).reverse = l.getD i 'a' :: (l.take i).reverse := by
  rw [List.take_succ, List.getElem?_eq_getElem h, List.getD_eq_getElem l 'a' h]
  simp

/-- Bridge between the matrix embedding and its recursive companion. -/
theorem levenshteinCell_eq_levSuff (a b : List Char) :
    ∀ i j, i ≤ a.length → j ≤ b.length →
      levenshteinCell a b i j = levSuff ((a.take i).reverse) ((b.take j).reverse) := by
  intro i
  induction i with
  | zero =>
    intro j hi hj
    show levenshteinRow a b 0 j = _
    simp [levenshteinRow, levSuff, Nat.min_eq_left hj]
  | succ i ihi =>
    intro j
    induction j with
    | zero =>
      intro hi hj
      show levenshteinRow a b (i + 1) 0 = _
      rw [levenshteinRow_col_zero a b (i + 1)]
      rw [List.take_zero]
      show _ = levSuff ((a.take (i + 1)).reverse) []
      rw [levSuff_nil_right]
      simp [Nat.min_eq_left hi]
    | succ j ihj =>
      intro hi hj
      have hi' : i < a.length := hi
      have hj' : j < b.length := hj
      rw [levenshteinCell_succ_succ,
        ihi (j + 1) (Nat.le_of_lt hi') hj,
        ihi j (Nat.le_of_lt hi') (Nat.le_of_lt hj'),
        ihj hi (Nat.le_of_lt hj'),
        reverse_take_succ hi', reverse_take_succ hj',
        levSuff_cons_cons]

theorem calculate_levenshtein_eq_levSuff (a b : List Char) :
    calculate_levenshtein_distance a b = levSuff a.reverse b.reverse := by
  have h := levenshteinCell_eq_levSuff a b a.length b.length (Nat.le_refl _)
    (Nat.le_refl _)
  simpa [calculate_levenshtein_distance, List.take_length] using h

theorem levSuff_nil_left (ys : List Char) : levSuff [] ys = ys.length := by
  simp [levSuff]

theorem levSuff_self (xs : List Char) : levSuff xs xs = 0 := by
  induction xs with
  | nil => simp [levSuff]
  | cons x xs ih => simp [levSuff_cons_cons, cost_heuristic_for_characters, ih]

theorem levSuff_eq_zero {xs ys : List Char} (h : levSuff xs ys = 0) : xs = ys := by
  induction xs generalizing ys with
  | nil =>
    rw [levSuff_nil_left] at h
    exact (List.length_eq_zero.mp h).symm
  | cons x xs ih =>
    cases ys with
    | nil => simp [levSuff] at h
    | cons y ys =>
      rw [levSuff_cons_cons] at h
      rcases Nat.min_eq_zero_iff.mp h with h1 | h2
      · rcases Nat.min_eq_zero_iff.mp h1 with h3 | h3 <;> omega
      · have hc : cost_heuristic_for_characters x y = 0 ∧ levSuff xs ys = 0 := by omega
        have hxy : x = y := by
          by_contra hne
          have : cost_heuristic_for_characters x y = 1 := if_neg hne
          omega
        rw [hxy, ih hc.2]

theorem levSuff_cons_right_le (xs ys : List Char) (y : Char) :
    levSuff xs (y :: ys) ≤ levSuff xs ys + 1 := by
  cases xs with
  | nil => simp [levSuff]
  | cons x xs =>
    rw [levSuff_cons_cons]
    calc min (min (levSuff xs (y :: ys) + 1) (levSuff (x :: xs) ys + 1)) _ ≤ _ :=
          Nat.min_le_left _ _
      _ ≤ levSuff (x :: xs) ys + 1 := Nat.min_le_right _ _

theorem levSuff_cons_left_le (xs ys : List Char) (x : Char) :
    levSuff (x :: xs) ys ≤ levSuff xs ys + 1 := by
  cases ys with
  | nil => simp [levSuff, levSuff_nil_right]
  | cons y ys =>
    rw [levSuff_cons_cons]
    calc min (min (levSuff xs (y :: ys) + 1) (levSuff (x :: xs) ys + 1)) _ ≤ _ :=
          Nat.min_le_left _ _
      _ ≤ levSuff xs (y :: ys) + 1 := Nat.min_le_left _ _

theorem levSuff_le_cons_right (xs : List Char) :
    ∀ (ys : List Char) (y : Char), levSuff xs ys ≤ levSuff xs (y :: ys) + 1 := by
  induction xs with
  | nil =>
    intro ys y
    rw [levSuff_nil_left, levSuff_nil_left, List.length_cons]
    omega
  | cons x xs ih =>
    intro ys y
    rw [levSuff_cons_cons]
    have h1 : levSuff (x :: xs) ys ≤ levSuff xs ys + 1 := levSuff_cons_left_le xs ys x
    have h2 : levSuff xs ys ≤ levSuff xs (y :: ys) + 1 := ih ys y
    rcases min_cases (min (levSuff xs (y :: ys) + 1) (levSuff (x :: xs) ys + 1))
      (levSuff xs ys + cost_heuristic_for_characters x y) with ⟨hm, -⟩ | ⟨hm, -⟩ <;>
      rcases min_cases (levSuff xs (y :: ys) + 1) (levSuff (x :: xs) ys + 1) with
        ⟨hm2, -⟩ | ⟨hm2, -⟩ <;> omega

theorem levSuff_le_cons_left (ys : List Char) :
    ∀ (xs : List Char) (x : Char), levSuff xs ys ≤ levSuff (x :: xs) ys + 1 := by
  induction ys with
  | nil =>
    intro xs x
    rw [levSuff_nil_right, levSuff_nil_right, List.length_cons]
    omega
  | cons y ys ih =>
    intro xs x
    rw [levSuff_cons_cons]
    have h1 : levSuff xs (y :: ys) ≤ levSuff xs ys + 1 := levSuff_cons_right_le xs ys y
    have h2 : levSuff xs ys ≤ levSuff (x :: xs) ys + 1 := ih xs x
    rcases min_cases (min (levSuff xs (y :: ys) + 1) (levSuff (x :: xs) ys + 1))
      (levSuff xs ys + cost_heuristic_for_characters x y) with ⟨hm, -⟩ | ⟨hm, -⟩ <;>
      rcases min_cases (levSuff xs (y :: ys) + 1) (levSuff (x :: xs) ys + 1) with
        ⟨hm2, -⟩ | ⟨hm2, -⟩ <;> omega

theorem levSuff_cons_same (z : Char) (xs ys : List Char) :
    levSuff (z :: xs) (z :: ys) = levSuff xs ys := by
  rw [levSuff_cons_cons]
  have hc : cost_heuristic_for_characters z z = 0 := if_pos rfl
  have h1 : levSuff xs ys ≤ levSuff xs (z :: ys) + 1 := levSuff_le_cons_right xs ys z
  have h2 : levSuff xs ys ≤ levSuff (z :: xs) ys + 1 := levSuff_le_cons_left ys xs z
  rcases min_cases (min (levSuff xs (z :: ys) + 1) (levSuff (z :: xs) ys + 1))
    (levSuff xs ys + cost_heuristic_for_characters z z) with ⟨hm, -⟩ | ⟨hm, -⟩ <;>
    rcases min_cases (levSuff xs (z :: ys) + 1) (levSuff (z :: xs) ys + 1) with
      ⟨hm2, -⟩ | ⟨hm2, -⟩ <;> omega

theorem levSuff_append_same (L xs ys : List Char) :
    levSuff (L ++ xs) (L ++ ys) = levSuff xs ys := by
  induction L with
  | nil => rfl
  | cons z L ih => rw [List.cons_append, List.cons_append, levSuff_cons_same, ih]

theorem levSuff_delete_le (x : Char) (xs : List Char) :
    levSuff (x :: xs) xs ≤ 1 := by
  cases xs with
  | nil => simp [levSuff]
  | cons y ys =>
    rw [levSuff_cons_cons]
    have : levSuff (y :: ys) (y :: ys) = 0 := levSuff_self _
    calc min _ _ ≤ _ := Nat.min_le_left _ _
      _ ≤ levSuff (y :: ys) (y :: ys) + 1 := Nat.min_le_left _ _
      _ = 1 := by omega

theorem levSuff_insert_le (y : Char) (xs : List Char) :
    levSuff xs (y :: xs) ≤ 1 := by
  cases xs with
  | nil => simp [levSuff]
  | cons x xs =>
    rw [levSuff_cons_cons]
    have : levSuff (x :: xs) (x :: xs) = 0 := levSuff_self _
    calc min _ _ ≤ _ := Nat.min_le_left _ _
      _ ≤ levSuff (x :: xs) (x :: xs) + 1 := Nat.min_le_right _ _
      _ = 1 := by omega

theorem levSuff_substitute_le (x y : Char) (xs : List Char) :
    levSuff (x :: xs) (y :: xs) ≤ 1 := by
  rw [levSuff_cons_cons]
  have h0 : levSuff xs xs = 0 := levSuff_self _
  have hc : cost_heuristic_for_characters x y ≤ 1 := by
    unfold cost_heuristic_for_characters
    split <;> omega
  calc min _ (levSuff xs xs + cost_heuristic_for_characters x y) ≤ _ :=
        Nat.min_le_right _ _
    _ ≤ 1 := by omega

theorem levSuff_transpose_le (x y : Char) (xs : List Char) :
    levSuff (x :: y :: xs) (y :: x :: xs) ≤ 2 := by
  rw [levSuff_cons_cons]
  have h1 : levSuff (y :: xs) (y :: x :: xs) = levSuff xs (x :: xs) :=
    levSuff_cons_same y xs (x :: xs)
  have h2 : levSuff xs (x :: xs) ≤ 1 := levSuff_insert_le x xs
  calc min _ _ ≤ _ := Nat.min_le_left _ _
    _ ≤ levSuff (y :: xs) (y :: x :: xs) + 1 := Nat.min_le_left _ _
    _ ≤ 2 := by omega

theorem mem_split_test_word {w : List Char} {p : List Char × List Char}
    (h : p ∈ split_test_word w) : w = p.1 ++ p.2 := by
  unfold split_test_word at h
  rcases List.mem_map.mp h with ⟨i, -, rfl⟩
  exact (List.take_append_drop i w).symm

/-- Claim C2 counterexample: two candidates of the generator whose Levenshtein
distance from the input word is not 1: the word itself (distance 0, produced
by the substitution comprehension replacing a character with itself) and an
adjacent transposition (distance 2 under Levenshtein, which has no
transposition operation). -/
theorem levenshtein_round_trip_fails :
    ("a".toList ∈ alternative_words_with_one_distance "a".toList ∧
      calculate_levenshtein_distance "a".toList "a".toList = 0) ∧
    ("ba".toList ∈ alternative_words_with_one_distance "ab".toList ∧
      calculate_levenshtein_distance "ab".toList "ba".toList = 2) := by
  refine ⟨⟨by decide, by decide⟩, ⟨by decide, by decide⟩⟩

/-- Claim C2 (amended): every candidate in the generated set has Levenshtein
distance at most 2 from the input word (deletions, substitutions and
insertions give distance at most 1, adjacent transpositions at most 2), and
the distance is 0 exactly for the input word itself, which the generator does
produce. -/
theorem one_edit_candidates_levenshtein_distance (w c : List Char)
    (hc : c ∈ alternative_words_with_one_distance w) :
    calculate_levenshtein_distance w c ≤ 2 ∧
    (calculate_levenshtein_distance w c = 0 ↔ c = w) := by
  constructor
  · have hrev1 : ∀ (l r : List Char) (u : Char),
        (l ++ u :: r).reverse = r.reverse ++ (u :: l.reverse) := by
      intro l r u
      simp
    have hrev2 : ∀ (l r : List Char) (u v : Char),
        (l ++ u :: v :: r).reverse = r.reverse ++ (v :: u :: l.reverse) := by
      intro l r u v
      simp
    unfold alternative_words_with_one_distance at hc
    rw [calculate_levenshtein_eq_levSuff]
    rcases List.mem_append.mp hc with hc' | hins
    rcases List.mem_append.mp hc' with hc'' | hrep
    rcases List.mem_append.mp hc'' with hdel | htra
    · -- deletion
      unfold deleting_characters at hdel
      rcases List.mem_map.mp hdel with ⟨p, hp, rfl⟩
      rcases List.mem_filter.mp hp with ⟨hsp, hne⟩
      have hw := mem_split_test_word hsp
      cases h2 : p.2 with
      | nil => rw [h2] at hne; simp at hne
      | cons ch t =>
        rw [hw, h2]
        simp only [List.tail_cons]
        rw [hrev1 p.1 t ch, List.reverse_append, levSuff_append_same]
        calc levSuff (ch :: p.1.reverse) p.1.reverse ≤ 1 := levSuff_delete_le _ _
          _ ≤ 2 := by omega
    · -- adjacent transposition
      unfold transposing_characters_in_split_words at htra
      rcases List.mem_map.mp htra with ⟨p, hp, rfl⟩
      rcases List.mem_filter.mp hp with ⟨hsp, hlen⟩
      have hw := mem_split_test_word hsp
      have hlen' : 1 < p.2.length := of_decide_eq_true hlen
      cases h2 : p.2 with
      | nil => rw [h2] at hlen'; simp at hlen'
      | cons c0 t0 =>
        cases h3 : t0 with
        | nil =>
          rw [h2, h3] at hlen'
          simp at hlen'
        | cons c1 t =>
          rw [hw, h2, h3]
          simp only [List.getD_cons_succ, List.getD_cons_zero, List.drop_succ_cons,
            List.drop_zero]
          rw [show p.1 ++ [c1, c0] ++ t = p.1 ++ c1 :: c0 :: t by simp]
          rw [hrev2 p.1 t c0 c1, hrev2 p.1 t c1 c0, levSuff_append_same]
          exact levSuff_transpose_le c1 c0 p.1.reverse
    · -- substitution
      unfold replacing_characters_in_split_words at hrep
      rcases List.mem_flatMap.mp hrep with ⟨p, hp, hc2⟩
      rcases List.mem_map.mp hc2 with ⟨character, -, rfl⟩
      rcases List.mem_filter.mp hp with ⟨hsp, hne⟩
      have hw := mem_split_test_word hsp
      cases h2 : p.2 with
      | nil => rw [h2] at hne; simp at hne
      | cons ch t =>
        rw [hw, h2]
        simp only [List.tail_cons]
        rw [show p.1 ++ [character] ++ t = p.1 ++ character :: t by simp]
        rw [hrev1 p.1 t ch, hrev1 p.1 t character, levSuff_append_same]
        calc levSuff (ch :: p.1.reverse) (character :: p.1.reverse) ≤ 1 :=
              levSuff_substitute_le _ _ _
          _ ≤ 2 := by omega
    · -- insertion
      unfold insert_characters_in_split_words at hins
      rcases List.mem_flatMap.mp hins with ⟨p, hp, hc2⟩
      rcases List.mem_map.mp hc2 with ⟨character, -, rfl⟩
      have hw := mem_split_test_word hp
      rw [hw]
      rw [show p.1 ++ [character] ++ p.2 = p.1 ++ character :: p.2 by simp]
      rw [hrev1 p.1 p.2 character, List.reverse_append, levSuff_append_same]
      calc levSuff p.1.reverse (character :: p.1.reverse) ≤ 1 := levSuff_insert_le _ _
        _ ≤ 2 := by omega
  · rw [calculate_levenshtein_eq_levSuff]
    constructor
    · intro h0
      have := levSuff_eq_zero h0
      have := List.reverse_injective this
      exact this.symm
    · rintro rfl
      exact levSuff_self _

/-- Witness for the amended claim C2 at the concrete candidate "at" of "cat". -/
theorem one_edit_candidates_levenshtein_distance_witness :
    "at".toList ∈ alternative_words_with_one_distance "cat".toList ∧
    calculate_levenshtein_distance "cat".toList "at".toList ≤ 2 ∧
    (calculate_levenshtein_distance "cat".toList "at".toList = 0 ↔
      "at".toList = "cat".toList) := by
  refine ⟨by decide, ?_, ?_⟩
  · exact (one_edit_candidates_levenshtein_distance "cat".toList "at".toList
      (by decide)).1
  · exact (one_edit_candidates_levenshtein_distance "cat".toList "at".toList
      (by decide)).2

/-! Optimal string alignment is bounded by Levenshtein: the OSA loop performs
the same relaxations and possibly one extra lowering relaxation per cell. -/

theorem osaRowStep_le_levenshteinRowStep (a b : List Char) (i : Nat)
    (prev prevL pprev : Nat → Nat) (h : ∀ j, prev j ≤ prevL j) :
    ∀ j, osaRowStep a b i prev pprev j ≤ levenshteinRowStep a b i prevL j := by
  intro j
  induction j with
  | zero => simp [osaRowStep, levenshteinRowStep]
  | succ j ih =>
    simp only [osaRowStep, levenshteinRowStep]
    have hb1 : min (min (prev (j + 1) + 1) (osaRowStep a b i prev pprev j + 1))
        (prev j + cost_heuristic_for_characters (a.getD i 'a') (b.getD j 'a')) ≤
        prevL (j + 1) + 1 :=
      le_trans (Nat.min_le_left _ _)
        (le_trans (Nat.min_le_left _ _) (Nat.add_le_add_right (h (j + 1)) 1))
    have hb2 : min (min (prev (j + 1) + 1) (osaRowStep a b i prev pprev j + 1))
        (prev j + cost_heuristic_for_characters (a.getD i 'a') (b.getD j 'a')) ≤
        levenshteinRowStep a b i prevL j + 1 :=
      le_trans (Nat.min_le_left _ _)
        (le_trans (Nat.min_le_right _ _) (Nat.add_le_add_right ih 1))
    have hb3 : min (min (prev (j + 1) + 1) (osaRowStep a b i prev pprev j + 1))
        (prev j + cost_heuristic_for_characters (a.getD i 'a') (b.getD j 'a')) ≤
        prevL j + cost_heuristic_for_characters (a.getD i 'a') (b.getD j 'a') :=
      le_trans (Nat.min_le_right _ _) (Nat.add_le_add_right (h j) _)
    split
    · exact le_min (le_min (le_trans (Nat.min_le_left _ _) hb1)
        (le_trans (Nat.min_le_left _ _) hb2))
        (le_trans (Nat.min_le_left _ _) hb3)
    · exact le_min (le_min hb1 hb2) hb3

theorem osaRow_le_levenshteinRow (a b : List Char) :
    ∀ i j, osaRow a b i j ≤ levenshteinRow a b i j := by
  intro i
  induction i with
  | zero => intro j; simp [osaRow, osaRowPair, levenshteinRow]
  | succ i ih =>
    intro j
    show (osaRowPair a b (i + 1)).1 j ≤ levenshteinRow a b (i + 1) j
    simp only [osaRowPair, levenshteinRow]
    exact osaRowStep_le_levenshteinRowStep a b i _ _ _ (fun j' => ih j') j

theorem osa_le_levenshtein (a b : List Char) :
    calculate_optimal_string_alignment_distance a b ≤
      calculate_levenshtein_distance a b :=
  osaRow_le_levenshteinRow a b a.length b.length

/-! Support lemmas for the Damerau-Levenshtein invariant proof. -/

theorem lastOccRows_zero (a : List Char) (c : Char) : lastOccRows a 0 c = 0 := rfl

theorem lastOccRows_snoc (a : List Char) (k : Nat) (c : Char) :
    lastOccRows a (k + 1) c =
      if a.getD k 'a' = c then k + 2 else lastOccRows a k c := by
  unfold lastOccRows
  rw [List.range'_1_concat, List.foldl_append]
  simp only [List.foldl_cons, List.foldl_nil]
  rw [show 2 + k - 2 = k by omega, show 2 + k = k + 2 by omega]

theorem lastOccRows_last (a : List Char) (k : Nat) (c : Char) (hk : 1 ≤ k)
    (h : a.getD (k - 1) 'a' = c) : lastOccRows a k c = k + 1 := by
  obtain ⟨k', rfl⟩ : ∃ k', k = k' + 1 := ⟨k - 1, by omega⟩
  rw [lastOccRows_snoc]
  rw [show k' + 1 - 1 = k' from rfl] at h
  rw [if_pos h]

theorem lastMatchCols_zero (a b : List Char) (i : Nat) :
    lastMatchCols a b i 0 = 0 := rfl

theorem lastMatchCols_snoc (a b : List Char) (i q : Nat) :
    lastMatchCols a b i (q + 1) =
      if a.getD (i - 2) 'a' = b.getD q 'a' then q + 2 else lastMatchCols a b i q := by
  unfold lastMatchCols
  rw [List.range'_1_concat, List.foldl_append]
  simp only [List.foldl_cons, List.foldl_nil]
  rw [show 2 + q - 2 = q by omega, show 2 + q = q + 2 by omega]

theorem lastMatchCols_last (a b : List Char) (i q : Nat) (hq : 1 ≤ q)
    (h : a.getD (i - 2) 'a' = b.getD (q - 1) 'a') : lastMatchCols a b i q = q + 1 := by
  obtain ⟨q', rfl⟩ : ∃ q', q = q' + 1 := ⟨q - 1, by omega⟩
  rw [lastMatchCols_snoc]
  rw [show q' + 1 - 1 = q' from rfl] at h
  rw [if_pos h]

theorem update2_self (M : Nat → Nat → Int) (i j : Nat) (v : Int) :
    update2 M i j v i j = v := by
  simp [update2]

theorem update2_ne (M : Nat → Nat → Int) (i j : Nat) (v : Int) (r c : Nat)
    (h : ¬ (r = i ∧ c = j)) : update2 M i j v r c = M r c := by
  unfold update2
  rw [if_neg h]

theorem distance_cost_eq_cast (x y : Char) :
    (if x = y then (0 : Int) else 1) = (cost_heuristic_for_characters x y : Int) := by
  unfold cost_heuristic_for_characters
  split <;> simp

theorem wrapIdx_natCast (s t : Nat) : wrapIdx s (t : Int) = t := by
  unfold wrapIdx
  rw [if_neg (by omega)]
  omega

theorem osaCell_zero_left (a b : List Char) (j : Nat) : osaCell a b 0 j = j := rfl

/-- Explicit description of one successful inner iteration of the
Damerau-Levenshtein loop. -/
theorem dl_process_cell_eq (a b : List Char) (m n : Nat) (table : Char → Option Nat)
    (i : Nat) (st : DLRowState) (j : Nat) (K : Nat)
    (hlook : table (b.getD (j - 2) 'a') = some K) :
    dl_process_cell a b m n table i st j = some
      { M := update2 st.M i j (min (min (min
            (st.M (i - 1) (j - 1) +
              (if a.getD (i - 2) 'a' = b.getD (j - 2) 'a' then (0 : Int) else 1))
            (st.M i (j - 1) + 1)) (st.M (i - 1) j + 1))
          (st.M (wrapIdx (m + 2) ((K : Int) - 1))
              (wrapIdx (n + 2) ((st.latest_column_for_character : Int) - 1)) +
            ((i : Int) - K - 1) + ((j : Int) - st.latest_column_for_character - 1) + 1)),
        latest_column_for_character :=
          if a.getD (i - 2) 'a' = b.getD (j - 2) 'a' then j
          else st.latest_column_for_character,
        lookups := st.lookups ++
          [((K : Int) - 1, (st.latest_column_for_character : Int) - 1)] } := by
  unfold dl_process_cell
  rw [hlook]

/-- The recurrence satisfied by the optimal-string-alignment cells. -/
theorem osaCell_succ_succ (a b : List Char) (i j : Nat) :
    osaCell a b (i + 1) (j + 1) =
      if 1 ≤ i ∧ 1 ≤ j ∧ a.getD i 'a' = b.getD (j - 1) 'a' ∧
          a.getD (i - 1) 'a' = b.getD j 'a' then
        min (min (min (osaCell a b i (j + 1) + 1) (osaCell a b (i + 1) j + 1))
          (osaCell a b i j + cost_heuristic_for_characters (a.getD i 'a') (b.getD j 'a')))
          (osaCell a b (i - 1) (j - 1) + 1)
      else
        min (min (osaCell a b i (j + 1) + 1) (osaCell a b (i + 1) j + 1))
          (osaCell a b i j +
            cost_heuristic_for_characters (a.getD i 'a') (b.getD j 'a')) := by
  cases i with
  | zero =>
    rw [if_neg (by rintro ⟨h, -⟩; omega)]
    show (osaRowPair a b 1).1 (j + 1) = _
    simp only [osaRowPair, osaRowStep]
    rw [if_neg (by rintro ⟨h, -⟩; omega)]
    rfl
  | succ i' =>
    show (osaRowPair a b (i' + 2)).1 (j + 1) = _
    simp only [osaRowPair, osaRowStep]
    rw [show i' + 1 - 1 = i' by omega]
    split
    · rfl
    · rfl

/-- Every matrix cell with row index at most the current row (and column up to
the processed columns when on the current row) is bounded by the shifted
optimal-string-alignment cell; border cells hold that bound with equality. -/
theorem rowInv_read {a b : List Char} {i q : Nat} {st : DLRowState}
    (inv : RowInv a b i q st) (hi2 : 2 ≤ i) (him : i ≤ a.length + 1) :
    ∀ r c, 1 ≤ r → r ≤ i → (r = i → c ≤ q + 1) → 1 ≤ c → c ≤ b.length + 1 →
      st.M r c ≤ (osaCell a b (r - 1) (c - 1) : Int) := by
  intro r c h1r hri hqc h1c hcn
  by_cases hr1 : r = 1
  · subst hr1
    rw [inv.2.1 1 c (by rintro (⟨h1, h2, h3, h4⟩ | ⟨h1, h2, h3⟩) <;> omega)]
    rw [dl_matrix_row_one a.length b.length c h1c hcn]
    rw [show (1 : Nat) - 1 = 0 from rfl, osaCell_zero_left]
    omega
  · by_cases hc1 : c = 1
    · subst hc1
      rw [inv.2.1 r 1 (by rintro (⟨h1, h2, h3, h4⟩ | ⟨h1, h2, h3⟩) <;> omega)]
      rw [dl_matrix_col_one a.length b.length r hr1 h1r (by omega)]
      rw [show osaCell a b (r - 1) (1 - 1) = r - 1 from osaRow_col_zero a b (r - 1)]
      omega
    · apply inv.1
      by_cases hri' : r = i
      · exact Or.inr ⟨hri', by omega, hqc hri'⟩
      · exact Or.inl ⟨by omega, by omega, by omega, hcn⟩

/-- One inner iteration of the Damerau-Levenshtein loop preserves the row
invariant: the freshly written cell is bounded by the corresponding
optimal-string-alignment cell.  The transposition term needs the exact values
of the last-occurrence row and last-matching column only when the
optimal-string-alignment transposition condition holds; in that case they are
the adjacent row and column. -/
theorem dl_cell_step (a b : List Char) (I' q : Nat) (table : Char → Option Nat)
    (st : DLRowState)
    (hb : ∀ c ∈ b, c ∈ ascii_lowercase)
    (him : I' + 2 ≤ a.length + 1) (hq : q < b.length)
    (htab : ∀ c ∈ ascii_lowercase, table c = some (lastOccRows a I' c))
    (inv : RowInv a b (I' + 2) q st) :
    ∃ st', dl_process_cell a b a.length b.length table (I' + 2) st (q + 2) = some st' ∧
      RowInv a b (I' + 2) (q + 1) st' := by
  have hch : b.getD (q + 2 - 2) 'a' ∈ b := by
    rw [show q + 2 - 2 = q by omega, List.getD_eq_getElem b 'a' hq]
    exact List.getElem_mem hq
  have hlook := htab _ (hb _ hch)
  have hstep := dl_process_cell_eq a b a.length b.length table (I' + 2) st (q + 2) _ hlook
  rw [show q + 2 - 1 = q + 1 by omega, show q + 2 - 2 = q by omega,
    show I' + 2 - 1 = I' + 1 by omega, show I' + 2 - 2 = I' by omega] at hstep
  refine ⟨_, hstep, ?_, ?_, ?_⟩
  · -- bounded region
    intro r c hrc
    dsimp only
    by_cases hnew : r = I' + 2 ∧ c = q + 2
    · obtain ⟨rfl, rfl⟩ := hnew
      rw [update2_self]
      rw [show I' + 2 - 1 = I' + 1 by omega, show q + 2 - 1 = q + 1 by omega,
        osaCell_succ_succ a b I' q]
      have hcost : (if a.getD I' 'a' = b.getD q 'a' then (0 : Int) else 1) =
          (cost_heuristic_for_characters (a.getD I' 'a') (b.getD q 'a') : Int) :=
        distance_cost_eq_cast _ _
      have hT1 : st.M (I' + 1) (q + 1) ≤ (osaCell a b I' q : Int) :=
        rowInv_read inv (by omega) him (I' + 1) (q + 1) (by omega) (by omega)
          (by omega) (by omega) (by omega)
      have hT2 : st.M (I' + 2) (q + 1) ≤ (osaCell a b (I' + 1) q : Int) :=
        rowInv_read inv (by omega) him (I' + 2) (q + 1) (by omega) (by omega)
          (by omega) (by omega) (by omega)
      have hT3 : st.M (I' + 1) (q + 2) ≤ (osaCell a b I' (q + 1) : Int) :=
        rowInv_read inv (by omega) him (I' + 1) (q + 2) (by omega) (by omega)
          (by omega) (by omega) (by omega)
      by_cases hcond : 1 ≤ I' ∧ 1 ≤ q ∧ a.getD I' 'a' = b.getD (q - 1) 'a' ∧
          a.getD (I' - 1) 'a' = b.getD q 'a'
      · rw [if_pos hcond]
        have hKval : lastOccRows a I' (b.getD q 'a') = I' + 1 :=
          lastOccRows_last a I' _ hcond.1 hcond.2.2.2
        have hLval : st.latest_column_for_character = q + 1 := by
          rw [inv.2.2]
          exact lastMatchCols_last a b (I' + 2) q hcond.2.1
            (by rw [show I' + 2 - 2 = I' by omega]; exact hcond.2.2.1)
        rw [hKval, hLval]
        rw [show ((I' + 1 : Nat) : Int) - 1 = ((I' : Nat) : Int) by push_cast; ring,
          show ((q + 1 : Nat) : Int) - 1 = ((q : Nat) : Int) by push_cast; ring,
          wrapIdx_natCast, wrapIdx_natCast]
        have hBread : st.M I' q ≤ (osaCell a b (I' - 1) (q - 1) : Int) :=
          rowInv_read inv (by omega) him I' q hcond.1 (by omega) (by omega)
            hcond.2.1 (by omega)
        push_cast
        refine le_min (le_min (le_min ?_ ?_) ?_) ?_
        · exact le_trans (le_trans (min_le_left _ _) (min_le_right _ _))
            (add_le_add_right hT3 1)
        · exact le_trans (le_trans (min_le_left _ _)
            (le_trans (min_le_left _ _) (min_le_right _ _)))
            (add_le_add_right hT2 1)
        · exact le_trans (le_trans (min_le_left _ _)
            (le_trans (min_le_left _ _) (min_le_left _ _)))
            (add_le_add hT1 (le_of_eq hcost))
        · refine le_trans (min_le_right _ _) ?_
          omega
      · rw [if_neg hcond]
        push_cast
        refine le_min (le_min ?_ ?_) ?_
        · exact le_trans (le_trans (min_le_left _ _) (min_le_right _ _))
            (add_le_add_right hT3 1)
        · exact le_trans (le_trans (min_le_left _ _)
            (le_trans (min_le_left _ _) (min_le_right _ _)))
            (add_le_add_right hT2 1)
        · exact le_trans (le_trans (min_le_left _ _)
            (le_trans (min_le_left _ _) (min_le_left _ _)))
            (add_le_add hT1 (le_of_eq hcost))
    · rw [update2_ne _ _ _ _ _ _ hnew]
      apply inv.1
      rcases hrc with hL | ⟨hr, hc2, hcq⟩
      · exact Or.inl hL
      · refine Or.inr ⟨hr, hc2, ?_⟩
        by_cases hcq2 : c = q + 2
        · exact absurd ⟨hr, hcq2⟩ hnew
        · omega
  · -- untouched region
    intro r c hrc
    dsimp only
    have hnew : ¬ (r = I' + 2 ∧ c = q + 2) := by
      rintro ⟨rfl, rfl⟩
      exact hrc (Or.inr ⟨rfl, by omega, by omega⟩)
    rw [update2_ne _ _ _ _ _ _ hnew]
    apply inv.2.1
    intro hreg
    apply hrc
    rcases hreg with hL | ⟨hr, hc2, hcq⟩
    · exact Or.inl hL
    · exact Or.inr ⟨hr, hc2, by omega⟩
  · -- the latest-column register
    dsimp only
    rw [lastMatchCols_snoc, show I' + 2 - 2 = I' by omega]
    by_cases hm : a.getD I' 'a' = b.getD q 'a'
    · rw [if_pos hm, if_pos hm]
    · rw [if_neg hm, if_neg hm, inv.2.2]

/-- The inner loop of a row preserves the row invariant over any number of
iterations. -/
theorem dl_row_fold (a b : List Char) (I' : Nat) (table : Char → Option Nat)
    (hb : ∀ c ∈ b, c ∈ ascii_lowercase)
    (him : I' + 2 ≤ a.length + 1)
    (htab : ∀ c ∈ ascii_lowercase, table c = some (lastOccRows a I' c)) :
    ∀ q, q ≤ b.length → ∀ st0, RowInv a b (I' + 2) 0 st0 →
      ∃ st', List.foldlM (dl_process_cell a b a.length b.length table (I' + 2)) st0
          (List.range' 2 q) = some st' ∧ RowInv a b (I' + 2) q st' := by
  intro q
  induction q with
  | zero =>
    intro _ st0 inv0
    exact ⟨st0, rfl, inv0⟩
  | succ q ih =>
    intro hq st0 inv0
    obtain ⟨st1, hfold, hinv1⟩ := ih (by omega) st0 inv0
    obtain ⟨st2, hstep, hinv2⟩ := dl_cell_step a b I' q table st1 hb him (by omega)
      htab hinv1
    refine ⟨st2, ?_, hinv2⟩
    rw [List.range'_1_concat, List.foldlM_append, hfold]
    show List.foldlM _ st1 [2 + q] = some st2
    rw [show 2 + q = q + 2 by omega, List.foldlM_cons, hstep]
    rfl

/-- One outer iteration preserves the outer invariant. -/
theorem dl_outer_step (a b : List Char) (k : Nat) (st : DLState)
    (hb : ∀ c ∈ b, c ∈ ascii_lowercase) (hk : k < a.length)
    (inv : OuterInv a b k st) :
    ∃ st', dl_process_row a b a.length b.length st (k + 2) = some st' ∧
      OuterInv a b (k + 1) st' := by
  have hrow0 : RowInv a b (k + 2) 0 ⟨st.M, 0, st.lookups⟩ := by
    refine ⟨?_, ?_, rfl⟩
    · intro r c hrc
      dsimp only
      apply inv.2.1
      rcases hrc with ⟨h1, h2, h3, h4⟩ | ⟨h1, h2, h3⟩
      · exact ⟨h1, by omega, h3, h4⟩
      · omega
    · intro r c hrc
      dsimp only
      apply inv.2.2
      rintro ⟨h1, h2, h3, h4⟩
      exact hrc (Or.inl ⟨h1, by omega, h3, h4⟩)
  obtain ⟨rst, hfold, hrinv⟩ := dl_row_fold a b k st.latest_row_for_character hb
    (by omega) (fun c hc => inv.1 c hc) b.length (Nat.le_refl _)
    ⟨st.M, 0, st.lookups⟩ hrow0
  refine ⟨⟨rst.M,
    updateTable st.latest_row_for_character (a.getD (k + 2 - 2) 'a') (k + 2),
    rst.lookups⟩, ?_, ?_, ?_, ?_⟩
  · unfold dl_process_row
    rw [hfold]
    rfl
  · intro c hc
    dsimp only
    unfold updateTable
    rw [show k + 2 - 2 = k by omega, lastOccRows_snoc]
    by_cases heq : c = a.getD k 'a'
    · rw [if_pos heq, if_pos heq.symm]
    · rw [if_neg heq, if_neg (fun h => heq h.symm)]
      exact inv.1 c hc
  · intro r c hrc
    dsimp only
    obtain ⟨h1, h2, h3, h4⟩ := hrc
    apply hrinv.1
    by_cases hr : r = k + 2
    · exact Or.inr ⟨hr, h3, by omega⟩
    · exact Or.inl ⟨h1, by omega, h3, h4⟩
  · intro r c hrc
    dsimp only
    apply hrinv.2.1
    intro hreg
    apply hrc
    rcases hreg with ⟨h1, h2, h3, h4⟩ | ⟨h1, h2, h3⟩
    · exact ⟨h1, by omega, h3, h4⟩
    · exact ⟨by omega, by omega, h2, by omega⟩

/-- The whole outer loop preserves the outer invariant. -/
theorem dl_run_inv (a b : List Char) (hb : ∀ c ∈ b, c ∈ ascii_lowercase) :
    ∀ k, k ≤ a.length →
      ∃ st, List.foldlM (dl_process_row a b a.length b.length)
          ⟨generate_damerau_leven_matrix a.length b.length,
            generate_baseline_row_for_characters, []⟩ (List.range' 2 k) = some st ∧
        OuterInv a b k st := by
  intro k
  induction k with
  | zero =>
    intro _
    refine ⟨_, rfl, ?_, ?_, ?_⟩
    · intro c hc
      dsimp only
      rw [baseline_row_of_lowercase hc, lastOccRows_zero]
    · rintro r c ⟨h1, h2, h3, h4⟩
      omega
    · intro r c _
      rfl
  | succ k ih =>
    intro hk
    obtain ⟨st, hfold, hinv⟩ := ih (by omega)
    obtain ⟨st', hstep, hinv'⟩ := dl_outer_step a b k st hb (by omega) hinv
    refine ⟨st', ?_, hinv'⟩
    rw [List.range'_1_concat, List.foldlM_append, hfold]
    show List.foldlM _ st [2 + k] = some st'
    rw [show 2 + k = k + 2 by omega, List.foldlM_cons, hstep]
    rfl

/-- Claim C4: for words over the lowercase alphabet the Damerau-Levenshtein
routine succeeds and its value is at most the optimal string alignment
distance, which in turn is at most the Levenshtein distance.  The negative
index wrapping can only lower cells further, so the chain survives the bug
documented for claims C3, C6 and C7. -/
theorem damerau_le_osa_le_levenshtein (a b : List Char)
    (_ha : ∀ c ∈ a, c ∈ ascii_lowercase) (hb : ∀ c ∈ b, c ∈ ascii_lowercase) :
    ∃ d : Int, calculate_damerau_levenshtein_distance a b = some d ∧
      d ≤ (calculate_optimal_string_alignment_distance a b : Int) ∧
      calculate_optimal_string_alignment_distance a b ≤
        calculate_levenshtein_distance a b := by
  obtain ⟨st, hfold, hinv⟩ := dl_run_inv a b hb a.length (Nat.le_refl _)
  have hrun : dlRun a b = some st := hfold
  refine ⟨st.M (wrapIdx (a.length + 2) (-1)) (wrapIdx (b.length + 2) (-1)), ?_, ?_,
    osa_le_levenshtein a b⟩
  · unfold calculate_damerau_levenshtein_distance
    rw [hrun]
    rfl
  · rw [wrapIdx_neg_one, wrapIdx_neg_one]
    show st.M (a.length + 1) (b.length + 1) ≤
      (calculate_optimal_string_alignment_distance a b : Int)
    rcases Nat.eq_zero_or_pos a.length with hm | hm
    · rw [hinv.2.2 (a.length + 1) (b.length + 1) (by omega)]
      rw [show a.length + 1 = 1 by omega]
      rw [dl_matrix_row_one _ _ _ (by omega) (by omega)]
      rw [show calculate_optimal_string_alignment_distance a b = b.length by
        unfold calculate_optimal_string_alignment_distance
        rw [hm]
        exact osaCell_zero_left a b b.length]
      omega
    · rcases Nat.eq_zero_or_pos b.length with hn | hn
      · rw [hinv.2.2 (a.length + 1) (b.length + 1) (by omega)]
        rw [show b.length + 1 = 1 by omega]
        rw [dl_matrix_col_one _ _ _ (by omega) (by omega) (by omega)]
        rw [show calculate_optimal_string_alignment_distance a b = a.length by
          unfold calculate_optimal_string_alignment_distance
          rw [hn]
          exact osaRow_col_zero a b a.length]
        omega
      · exact hinv.2.1 (a.length + 1) (b.length + 1)
          ⟨by omega, by omega, by omega, by omega⟩

/-- Witness for claim C4 at the concrete input ("ab", "ba"). -/
theorem damerau_le_osa_le_levenshtein_witness :
    ∃ d : Int,
      calculate_damerau_levenshtein_distance "ab".toList "ba".toList = some d ∧
      d ≤ (calculate_optimal_string_alignment_distance "ab".toList "ba".toList : Int) ∧
      calculate_optimal_string_alignment_distance "ab".toList "ba".toList ≤
        calculate_levenshtein_distance "ab".toList "ba".toList :=
  damerau_le_osa_le_levenshtein "ab".toList "ba".toList (by decide) (by decide)

/-- Claim C1 counterexample: the candidate set generated for "cat" does not
exclude "cat" itself; the substitution comprehension iterates over all 26
letters, including the character being replaced, so "cat" is produced by
substituting each of its characters for itself. -/
theorem one_edit_candidates_contain_cat_itself :
    "cat".toList ∈ alternative_words_with_one_distance "cat".toList := by
  decide

/-- Claim C1 (amended): the candidate set for "cat" includes "at", "act",
"cta", "bat" and "cats", excludes the two-edit word "bats", but contains
"cat" itself. -/
theorem one_edit_candidates_of_cat :
    "at".toList ∈ alternative_words_with_one_distance "cat".toList ∧
    "act".toList ∈ alternative_words_with_one_distance "cat".toList ∧
    "cta".toList ∈ alternative_words_with_one_distance "cat".toList ∧
    "bat".toList ∈ alternative_words_with_one_distance "cat".toList ∧
    "cats".toList ∈ alternative_words_with_one_distance "cat".toList ∧
    "bats".toList ∉ alternative_words_with_one_distance "cat".toList ∧
    "cat".toList ∈ alternative_words_with_one_distance "cat".toList := by
  decide

/-- Claim C3 counterexample: already for the words "a" and "b" the single
transposition lookup of the run uses the matrix index pair (-1, -1): both
last_matching_row and last_matching_column are 0 at the first inner iteration,
so the looked-up indices are negative and Python wraps them to the last row
and column instead of the sentinel border. -/
theorem damerau_lookup_uses_negative_indices :
    damerau_lookup_indices "a".toList "b".toList = some [(-1, -1)] := by
  decide

/-- Claim C5: on "ca" versus "ac" the scorers return Levenshtein 2, optimal
string alignment 1 and Damerau-Levenshtein 1, and on "ca" versus "abc" the
Damerau-Levenshtein distance 2 is strictly below the optimal string alignment
distance 3. -/
theorem scorers_on_ca_ac_and_ca_abc :
    calculate_levenshtein_distance "ca".toList "ac".toList = 2 ∧
    calculate_optimal_string_alignment_distance "ca".toList "ac".toList = 1 ∧
    calculate_damerau_levenshtein_distance "ca".toList "ac".toList = some 1 ∧
    calculate_damerau_levenshtein_distance "ca".toList "abc".toList = some 2 ∧
    2 < calculate_optimal_string_alignment_distance "ca".toList "abc".toList := by
  refine ⟨by decide, by decide, by decide, by decide, by decide⟩

/-- Claim C6 (code bug): the Damerau-Levenshtein implementation violates the
triangle inequality on the triple ("abacb", "ab", "a").  Its value on
("abacb", "ab") is 2, below the true Damerau-Levenshtein distance 3 (any edit
distance is at least the length difference 3): the transposition lookup with
last_matching_column 0 reads column -1, which Python wraps to the last matrix
column instead of the sentinel border.  Hence 4 > 2 + 1 below. -/
theorem damerau_triangle_violation :
    calculate_damerau_levenshtein_distance "abacb".toList "a".toList = some 4 ∧
    calculate_damerau_levenshtein_distance "abacb".toList "ab".toList = some 2 ∧
    calculate_damerau_levenshtein_distance "ab".toList "a".toList = some 1 ∧
    ¬ (4 : Int) ≤ 2 + 1 := by
  refine ⟨by decide, by decide, by decide, by decide⟩

/-- Claim C7 (code bug): the Damerau-Levenshtein implementation is not
symmetric: it returns 2 on ("abacb", "ab") but 3 on ("ab", "abacb").  The
value 2 is wrong (the true distance is 3, the length difference), caused by
the negative-index wrap in the transposition lookup. -/
theorem damerau_symmetry_violation :
    calculate_damerau_levenshtein_distance "abacb".toList "ab".toList = some 2 ∧
    calculate_damerau_levenshtein_distance "ab".toList "abacb".toList = some 3 ∧
    calculate_damerau_levenshtein_distance "abacb".toList "ab".toList ≠
      calculate_damerau_levenshtein_distance "ab".toList "abacb".toList := by
  refine ⟨by decide, by decide, by decide⟩

/-- Claim C9: the candidate set generated for the empty word is exactly the 26
single-letter lowercase words: the deletion, transposition and substitution
comprehensions are empty and the insertion comprehension inserts each letter
into the single empty split, with no duplicates. -/
theorem one_edit_candidates_of_empty_word :
    alternative_words_with_one_distance ([] : List Char) =
      alternative_letters.map (fun c => [c]) ∧
    (alternative_words_with_one_distance ([] : List Char)).Nodup ∧
    alternative_letters.length = 26 := by
  refine ⟨by decide, by decide, by decide⟩
